import Mathlib

/-!
Verification of the context-assembly subsystem of `open-cli`
(`lib/context-builder.js`, `lib/file-manager.js`).

JavaScript strings are modelled as `List Char` (`JStr`); the project index,
the filesystem and the mutable `ContextBuilder` state are explicit values.
Every definition follows the corresponding JavaScript function; the regex
passes of `_findMentionedFiles` are embedded as explicit scanners for the
five pattern classes used by the source.
-/

set_option maxRecDepth 20000

abbrev JStr := List Char

def lit (s : String) : JStr := s.data

/-- The double-quote character. -/
def dquoteChar : Char := Char.ofNat 34

/-- The single-quote character. -/
def squoteChar : Char := Char.ofNat 39

/-- The backtick character. -/
def backtickChar : Char := Char.ofNat 96

/-- JavaScript regex `\w` character class (the patterns are ASCII-only). -/
def isWordChar (c : Char) : Bool :=
  ('a' ≤ c && c ≤ 'z') || ('A' ≤ c && c ≤ 'Z') || ('0' ≤ c && c ≤ '9') || c = '_'

/-- Character class `[\w/]` of the path-like file pattern. -/
def isPathChar (c : Char) : Bool :=
  isWordChar c || c = '/'

/-- JavaScript `String.prototype.toLowerCase` on ASCII data. -/
def toLowerL (s : JStr) : JStr := s.map Char.toLower

/-- Does `hay` start with `needle`? -/
def startsWithL : JStr → JStr → Bool
  | [], _ => true
  | _ :: _, [] => false
  | a :: as, b :: bs => a = b && startsWithL as bs

/-- JavaScript `String.prototype.includes`: `needle` occurs in `hay`. -/
def containsSub (needle : JStr) : JStr → Bool
  | [] => needle.isEmpty
  | c :: t => startsWithL needle (c :: t) || containsSub needle t

/--
Attempt to match the regex `cls+ '.' \w+` at the head of `s`
(pattern classes `(\w+\.\w+)` and `([\w/]+\.[\w]+)` of `_findMentionedFiles`;
in both, `'.'` is outside `cls`, so the greedy run followed by a literal dot
is exact regex semantics).  Returns the matched text and the rest of `s`.
-/
def dotTokenAt (cls : Char → Bool) (s : JStr) : Option (JStr × JStr) :=
  match s.takeWhile cls, s.dropWhile cls with
  | c1 :: r1, d :: s2 =>
    if d = '.' then
      match s2.takeWhile isWordChar with
      | [] => none
      | c2 :: r2 => some ((c1 :: r1) ++ d :: c2 :: r2, s2.dropWhile isWordChar)
    else none
  | _, _ => none

/--
Attempt to match the regex `q [^q]+ \. \w+ q` at the head of `s`
(the backtick / double-quote / single-quote wrapped file patterns of
`_findMentionedFiles`).  Since neither a quote nor a word character equals
`'.'` or `q`, backtracking succeeds exactly when the span between the two
quotes ends in a nonempty word run preceded by a dot with at least one
character before that dot.
-/
def quotedAt (q : Char) (s : JStr) : Option (JStr × JStr) :=
  match s with
  | [] => none
  | c :: rest =>
    if c = q then
      let content := rest.takeWhile (fun x => !(x = q))
      match rest.dropWhile (fun x => !(x = q)) with
      | [] => none
      | _ :: tail =>
        let b := (content.reverse.takeWhile isWordChar).reverse
        let pre := content.take (content.length - b.length)
        if b.isEmpty then none
        else if pre.getLast? = some '.' ∧ 2 ≤ pre.length then
          some (q :: content ++ [q], tail)
        else none
    else none

/--
Global scanning of a matcher over a string with explicit fuel:
on a match continue after the matched text, otherwise advance one character
(JavaScript `String.prototype.match` with the `g` flag).
-/
def scanAllF (m : JStr → Option (JStr × JStr)) : Nat → JStr → List JStr
  | 0, _ => []
  | _ + 1, [] => []
  | fuel + 1, c :: t =>
    match m (c :: t) with
    | some (mt, rest) => mt :: scanAllF m fuel rest
    | none => scanAllF m fuel t

def scanAll (m : JStr → Option (JStr × JStr)) (s : JStr) : List JStr :=
  scanAllF m s.length s

/-- `match.replace(/[`"']/g, '')` of `_findMentionedFiles`. -/
def cleanMatch (m : JStr) : JStr :=
  m.filter (fun c => !(c = backtickChar) && !(c = dquoteChar) && !(c = squoteChar))

/-- All matches of the five file patterns of `_findMentionedFiles`, in pattern order. -/
def filePatternMatches (message : JStr) : List JStr :=
  scanAll (dotTokenAt isWordChar) message
    ++ scanAll (dotTokenAt isPathChar) message
    ++ scanAll (quotedAt backtickChar) message
    ++ scanAll (quotedAt dquoteChar) message
    ++ scanAll (quotedAt squoteChar) message

/-- A scanned project file (`FileManager._scanDirectory` record). -/
structure ProjectFile where
  name : JStr
  path : JStr
  relativePath : JStr
  extension : JStr
  size : Nat
deriving DecidableEq

/--
The observable file interface `ContextBuilder` consumes: the scanned index
(`fileManager.projectFiles`) and `fileManager.readFile` (`none` models the
JavaScript `null` returned on any failure).
-/
structure FileIndex where
  projectFiles : List ProjectFile
  readFile : JStr → Option JStr

/-- `FileManager.findFiles`: case-insensitive substring match on name, else on relative path. -/
def findFiles (files : List ProjectFile) (query : JStr) : List ProjectFile :=
  let lowerQuery := toLowerL query
  files.filter (fun f =>
    containsSub lowerQuery (toLowerL f.name) || containsSub lowerQuery (toLowerL f.relativePath))

/-- The `keywordToFileType` table of `_findMentionedFiles`, in source order. -/
def keywordToFileType : List (JStr × List JStr) :=
  [ (lit "main", [lit "main.js", lit "main.py", lit "index.js", lit "app.js", lit "main.cpp"]),
    (lit "config", [lit ".config", lit "config.js", lit "config.json", lit "package.json"]),
    (lit "readme", [lit "README.md", lit "readme.txt"]),
    (lit "test", [lit "test", lit "spec", lit "__test__"]),
    (lit "component", [lit ".jsx", lit ".tsx", lit ".vue"]),
    (lit "style", [lit ".css", lit ".scss", lit ".sass"]),
    (lit "database", [lit "db", lit "database", lit ".sql"]),
    (lit "api", [lit "api", lit "routes", lit "endpoints"]),
    (lit "auth", [lit "auth", lit "login", lit "authentication"]) ]

/-- Files pushed by the literal file-pattern pass of `_findMentionedFiles`. -/
def patternPassFiles (idx : FileIndex) (message : JStr) : List JStr :=
  (filePatternMatches message).flatMap
    (fun m => (findFiles idx.projectFiles (cleanMatch m)).map (·.relativePath))

/-- Files pushed for one keyword's pattern list: `matchingFiles.slice(0, 3)` per pattern. -/
def keywordFilesFor (idx : FileIndex) (pats : List JStr) : List JStr :=
  pats.flatMap (fun p => ((findFiles idx.projectFiles p).take 3).map (·.relativePath))

/-- Files pushed by the keyword-topic pass of `_findMentionedFiles`. -/
def keywordPassFiles (idx : FileIndex) (lowerMessage : JStr) : List JStr :=
  keywordToFileType.flatMap
    (fun kv => if containsSub kv.1 lowerMessage then keywordFilesFor idx kv.2 else [])

/-- JavaScript `Set` insertion: append unless already present. -/
def dedupInsert (acc : List JStr) (x : JStr) : List JStr :=
  if x ∈ acc then acc else acc ++ [x]

/-- `[...new Set(l)]`: deduplicate keeping the first occurrence order. -/
def dedupFirst (l : List JStr) : List JStr :=
  l.foldl dedupInsert []

/-- `ContextBuilder._findMentionedFiles`. -/
def findMentionedFiles (idx : FileIndex) (message : JStr) : List JStr :=
  dedupFirst (patternPassFiles idx message ++ keywordPassFiles idx (toLowerL message))

/-- One conversation turn (`{role, content}`). -/
structure Turn where
  role : JStr
  content : JStr
deriving DecidableEq

/-- `ContextBuilder._findRecentlyMentionedFiles`: last 4 turns, user turns only, Set union. -/
def findRecentlyMentionedFiles (idx : FileIndex) (conversationHistory : List Turn) : List JStr :=
  let recentMessages := conversationHistory.drop (conversationHistory.length - 4)
  recentMessages.foldl
    (fun acc m =>
      if m.role = lit "user" then (findMentionedFiles idx m.content).foldl dedupInsert acc
      else acc)
    []

/-- `ContextBuilder._buildFileContext`.  JavaScript `!content` is true both for
`null` (read failure) and for the empty string, so both produce the error block. -/
def buildFileContext (idx : FileIndex) (filePath : JStr) : JStr :=
  match idx.readFile filePath with
  | none => lit "FILE: " ++ filePath ++ lit "\n[Error: Could not read file]\n\n"
  | some content =>
    if content.isEmpty then lit "FILE: " ++ filePath ++ lit "\n[Error: Could not read file]\n\n"
    else
      let truncatedContent :=
        if 2000 < content.length then content.take 2000 ++ lit "\n... [File truncated]\n"
        else content
      lit "FILE: " ++ filePath ++ lit "\n" ++ List.replicate 40 '=' ++ lit "\n"
        ++ truncatedContent ++ lit "\n" ++ List.replicate 40 '=' ++ lit "\n\n"

def headerL : JStr :=
  lit "=== PROJECT CONTEXT ===\nHere are the relevant files from the user's project:\n\n"

def noticeL : JStr := lit "... (More files available but context limit reached)\n\n"

def footerL : JStr := lit "=== END PROJECT CONTEXT ===\n\n"

/-- The packing loop of `ContextBuilder.buildContext`: render each file's block,
stop with the notice as soon as a block would push the running total over budget. -/
def packFiles (idx : FileIndex) (budget : Nat) : List JStr → Nat → JStr
  | [], _ => []
  | f :: rest, currentLength =>
    if budget < currentLength + (buildFileContext idx f).length then noticeL
    else buildFileContext idx f
      ++ packFiles idx budget rest (currentLength + (buildFileContext idx f).length)

/-- The mutable fields of `ContextBuilder` (`maxContextLength` is set to 8000
by the constructor; `currentContext` starts empty). -/
structure ContextBuilderState where
  maxContextLength : Nat := 8000
  currentContext : List JStr := []
deriving DecidableEq

/-- The deduplicated selection `new Set([...mentionedFiles, ...recentlyMentioned])`. -/
def computeSelection (idx : FileIndex) (userMessage : JStr) (conversationHistory : List Turn) :
    List JStr :=
  dedupFirst (findMentionedFiles idx userMessage
    ++ findRecentlyMentionedFiles idx conversationHistory)

/-- `ContextBuilder.buildContext`, returning the context string and the updated state. -/
def buildContextS (idx : FileIndex) (st : ContextBuilderState) (userMessage : JStr)
    (conversationHistory : List Turn) : JStr × ContextBuilderState :=
  let filesToInclude := computeSelection idx userMessage conversationHistory
  let context :=
    if filesToInclude.isEmpty then []
    else headerL ++ packFiles idx st.maxContextLength filesToInclude 0 ++ footerL
  (context, { st with currentContext := filesToInclude })

/-- `ContextBuilder.getCurrentContext` (`Array.from` keeps Set insertion order). -/
def getCurrentContext (st : ContextBuilderState) : List JStr :=
  st.currentContext

/-!  The filesystem collaborator of `FileManager.readFile`. -/

/-- `fs.existsSync` and `fs.readFileSync(·, 'utf-8')`; `readUtf8 = none` models a
thrown read error, `some` the UTF-8 text. -/
structure FsModel where
  existsAt : JStr → Bool
  readUtf8 : JStr → Option JStr

/-- The configuration of a `FileManager` plus the process working directory that
`fs` APIs use to resolve relative paths. -/
structure FileManagerState where
  projectPath : JStr
  cwd : JStr

def isAbsolutePath (p : JStr) : Bool :=
  match p with
  | c :: _ => c = '/'
  | [] => false

/-- `path.join` on the plain segments exercised here (no `..`/`.` normalization). -/
def pathJoin (a b : JStr) : JStr := a ++ '/' :: b

/-- How `fs.existsSync` resolves a possibly relative argument: against the
process working directory. -/
def resolveAgainstCwd (cwd p : JStr) : JStr :=
  if isAbsolutePath p then p else pathJoin cwd p

/-- `FileManager.readFile`: the code computes `fullPath` against `projectPath`,
then runs `fs.existsSync(filePath)` on the UNRESOLVED argument (not `fullPath`),
and finally reads `fullPath`; any thrown error is caught and `null` returned. -/
def readFileFM (fm : FileManagerState) (fsm : FsModel) (filePath : JStr) : Option JStr :=
  let fullPath := if isAbsolutePath filePath then filePath else pathJoin fm.projectPath filePath
  if fsm.existsAt (resolveAgainstCwd fm.cwd filePath) then fsm.readUtf8 fullPath
  else none

/-!  Spec-side comparison functions (stated from the spec's words, to be proved
equal to the code's functions). -/

/-- Length of the longest prefix of a list of block sizes whose running total
never exceeds the budget. -/
def fitsCount (budget : Nat) : List Nat → Nat
  | [] => 0
  | l :: rest => if budget < l then 0 else fitsCount (budget - l) rest + 1

/-- The packing contract as the spec words it: the blocks of the longest
prefix that fits the budget are emitted whole and in order; if any block was
omitted, a single notice follows and nothing after the omission is considered. -/
def packSpec (idx : FileIndex) (budget : Nat) (files : List JStr) : JStr :=
  let blocks := files.map (buildFileContext idx)
  let k := fitsCount budget (blocks.map List.length)
  (blocks.take k).flatten ++ (if k < files.length then noticeL else [])

/-- The continuity contract as the spec words it: take the last 4 turns of the
full history (mixed roles), keep only those with role `user`, re-run candidate
extraction on each, and deduplicate the union in order of first appearance. -/
def continuitySpec (idx : FileIndex) (history : List Turn) : List JStr :=
  dedupFirst
    (((history.drop (history.length - 4)).filter (fun t => t.role = lit "user")).flatMap
      (fun t => findMentionedFiles idx t.content))

/-!  Concrete scenarios used by counterexamples and witnesses. -/

/-- A project file whose name, path and relative path coincide. -/
def exFile (n : JStr) : ProjectFile :=
  { name := n, path := n, relativePath := n, extension := lit ".js", size := 0 }

/-- Four readable files whose packed blocks sum to exactly the 8000 budget
(three truncated 2117-character blocks and one 1649-character block). -/
def idxOver : FileIndex :=
  { projectFiles := [exFile (lit "a.js"), exFile (lit "b.js"),
      exFile (lit "c.js"), exFile (lit "d.js")],
    readFile := fun p =>
      if p = lit "a.js" then some (List.replicate 2001 'a')
      else if p = lit "b.js" then some (List.replicate 2001 'b')
      else if p = lit "c.js" then some (List.replicate 2001 'c')
      else if p = lit "d.js" then some (List.replicate 1554 'd')
      else none }

def msgOver : JStr := lit "a.js b.js c.js d.js"

/-- Three big readable files followed by a quoted-mentioned file `q7.js` whose
block no longer fits the 8000 budget.  The character `'7'` occurs nowhere in
the packed output, which makes the absence of a `FILE: q7.js` block provable. -/
def idxDrop : FileIndex :=
  { projectFiles := [exFile (lit "a.js"), exFile (lit "b.js"),
      exFile (lit "c.js"), exFile (lit "q7.js")],
    readFile := fun p =>
      if p = lit "a.js" then some (List.replicate 2001 'x')
      else if p = lit "b.js" then some (List.replicate 2001 'y')
      else if p = lit "c.js" then some (List.replicate 2001 'z')
      else if p = lit "q7.js" then some (List.replicate 1700 'x')
      else none }

def msgDrop : JStr := lit "a.js b.js c.js \"q7.js\""

/-- Two files of the `idxTwo` index are unreadable and have 40-character stems,
so each renders as an 80-character error block. -/
def p43a : JStr := List.replicate 40 'a' ++ lit ".js"

def p43b : JStr := List.replicate 40 'b' ++ lit ".js"

def idxTwo : FileIndex :=
  { projectFiles := [exFile p43a, exFile p43b], readFile := fun _ => none }

def msgTwo : JStr := p43a ++ lit " " ++ p43b

/-- Five files so that the single keyword `test` contributes four candidates
(three via its pattern `test`, one via its pattern `spec`). -/
def idxKw : FileIndex :=
  { projectFiles := [exFile (lit "test1.js"), exFile (lit "test2.js"),
      exFile (lit "test3.js"), exFile (lit "test4.js"), exFile (lit "spec1.js")],
    readFile := fun _ => none }

/-- A 5000-character file and a 500-character file, both readable. -/
def idxSize : FileIndex :=
  { projectFiles := [exFile (lit "big.js"), exFile (lit "small.js")],
    readFile := fun p =>
      if p = lit "big.js" then some (List.replicate 5000 'a')
      else if p = lit "small.js" then some (List.replicate 500 'b')
      else none }

/-- One unreadable file followed by a readable one. -/
def idxErr : FileIndex :=
  { projectFiles := [exFile (lit "bad.js"), exFile (lit "ok.js")],
    readFile := fun p => if p = lit "ok.js" then some (lit "ok") else none }

/-- A single small readable file mentioned in quotes. -/
def idxOne : FileIndex :=
  { projectFiles := [exFile (lit "a.js")],
    readFile := fun p => if p = lit "a.js" then some (lit "hi") else none }

def msgOne : JStr := lit "see \"a.js\""

/-- A `FileManager` whose project root differs from the process working
directory, and a filesystem with one readable file under the project root. -/
def fmBug : FileManagerState := { projectPath := lit "/proj", cwd := lit "/other" }

def fsBug : FsModel :=
  { existsAt := fun p => p = lit "/proj/a.js",
    readUtf8 := fun p => if p = lit "/proj/a.js" then some (lit "hello") else none }

/-!  Helper lemmas. -/

theorem startsWithL_self : ∀ l : JStr, startsWithL l l = true := by
  intro l
  induction l with
  | nil => rfl
  | cons a t ih => simp [startsWithL, ih]

theorem containsSub_self : ∀ l : JStr, containsSub l l = true := by
  intro l
  cases l with
  | nil => rfl
  | cons a t => simp [containsSub, startsWithL_self]

theorem mem_dedupInsert_left {x a : JStr} {acc : List JStr} (h : x ∈ acc) :
    x ∈ dedupInsert acc a := by
  unfold dedupInsert
  split
  · exact h
  · exact List.mem_append.mpr (Or.inl h)

theorem mem_dedupInsert_self (a : JStr) (acc : List JStr) : a ∈ dedupInsert acc a := by
  unfold dedupInsert
  split
  · assumption
  · simp

theorem mem_foldl_dedupInsert (x : JStr) :
    ∀ (l : List JStr) (acc : List JStr), x ∈ acc ∨ x ∈ l → x ∈ l.foldl dedupInsert acc := by
  intro l
  induction l with
  | nil =>
    intro acc h
    simpa using h
  | cons a t ih =>
    intro acc h
    simp only [List.foldl_cons]
    apply ih
    rcases h with h | h
    · exact Or.inl (mem_dedupInsert_left h)
    · rcases List.mem_cons.mp h with h | h
      · exact Or.inl (h ▸ mem_dedupInsert_self a acc)
      · exact Or.inr h

theorem mem_dedupFirst {x : JStr} {l : List JStr} (h : x ∈ l) : x ∈ dedupFirst l :=
  mem_foldl_dedupInsert x l [] (Or.inr h)

theorem packFiles_length_le (idx : FileIndex) (b : Nat) :
    ∀ (files : List JStr) (cur : Nat), cur ≤ b →
      (packFiles idx b files cur).length + cur ≤ b + noticeL.length := by
  intro files
  induction files with
  | nil =>
    intro cur h
    simp only [packFiles, List.length_nil]
    omega
  | cons f rest ih =>
    intro cur h
    simp only [packFiles]
    split
    · have hn : noticeL.length = 54 := by decide
      omega
    · rename_i hle
      rw [List.length_append]
      have h2 : cur + (buildFileContext idx f).length ≤ b := by omega
      have h3 := ih (cur + (buildFileContext idx f).length) h2
      omega

theorem packFiles_eq_packSpecAux (idx : FileIndex) (b : Nat) :
    ∀ (files : List JStr) (cur : Nat), cur ≤ b →
      packFiles idx b files cur =
        ((files.map (buildFileContext idx)).take
            (fitsCount (b - cur) ((files.map (buildFileContext idx)).map List.length))).flatten
          ++ (if fitsCount (b - cur) ((files.map (buildFileContext idx)).map List.length)
                < files.length
              then noticeL else []) := by
  intro files
  induction files with
  | nil =>
    intro cur h
    simp [packFiles, fitsCount]
  | cons f rest ih =>
    intro cur h
    simp only [packFiles, List.map_cons, fitsCount]
    by_cases hb : b < cur + (buildFileContext idx f).length
    · have hlt : (b - cur) < (buildFileContext idx f).length := by omega
      simp only [if_pos hb, if_pos hlt]
      simp
    · have hge : ¬ ((b - cur) < (buildFileContext idx f).length) := by omega
      have hsub : b - cur - (buildFileContext idx f).length
          = b - (cur + (buildFileContext idx f).length) := by omega
      simp only [if_neg hb, if_neg hge, hsub]
      rw [ih (cur + (buildFileContext idx f).length) (by omega)]
      simp only [List.take_succ_cons, List.flatten_cons, List.append_assoc, List.length_cons,
        Nat.add_lt_add_iff_right]

theorem packFiles_eq_packSpec (idx : FileIndex) (b : Nat) (files : List JStr) :
    packFiles idx b files 0 = packSpec idx b files := by
  have h := packFiles_eq_packSpecAux idx b files 0 (Nat.zero_le b)
  simpa [packSpec] using h

theorem buildContextS_fst_of_ne_nil (idx : FileIndex) (st : ContextBuilderState) (msg : JStr)
    (hist : List Turn) (h : computeSelection idx msg hist ≠ []) :
    (buildContextS idx st msg hist).1
      = headerL ++ packFiles idx st.maxContextLength (computeSelection idx msg hist) 0
        ++ footerL := by
  unfold buildContextS
  cases hs : computeSelection idx msg hist with
  | nil => exact absurd hs h
  | cons a t => simp [hs]

theorem buildFileContext_err (idx : FileIndex) (p : JStr) (h : idx.readFile p = none) :
    buildFileContext idx p = lit "FILE: " ++ p ++ lit "\n[Error: Could not read file]\n\n" := by
  simp only [buildFileContext, h]

theorem buildFileContext_big (idx : FileIndex) (p c : JStr) (h : idx.readFile p = some c)
    (hlen : 2000 < c.length) :
    buildFileContext idx p
      = lit "FILE: " ++ p ++ lit "\n" ++ List.replicate 40 '=' ++ lit "\n"
        ++ (c.take 2000 ++ lit "\n... [File truncated]\n") ++ lit "\n"
        ++ List.replicate 40 '=' ++ lit "\n\n" := by
  cases c with
  | nil => simp at hlen
  | cons a t =>
    simp only [buildFileContext, h, List.isEmpty_cons, Bool.false_eq_true, if_false,
      if_pos hlen]

theorem buildFileContext_small (idx : FileIndex) (p c : JStr) (h : idx.readFile p = some c)
    (hne : c ≠ []) (hlen : c.length ≤ 2000) :
    buildFileContext idx p
      = lit "FILE: " ++ p ++ lit "\n" ++ List.replicate 40 '=' ++ lit "\n"
        ++ c ++ lit "\n" ++ List.replicate 40 '=' ++ lit "\n\n" := by
  cases c with
  | nil => exact absurd rfl hne
  | cons a t =>
    have hnot : ¬ (2000 < (a :: t).length) := by omega
    simp only [buildFileContext, h, List.isEmpty_cons, Bool.false_eq_true, if_false,
      if_neg hnot]

theorem bfc_length_err (idx : FileIndex) (p : JStr) (h : idx.readFile p = none) :
    (buildFileContext idx p).length = p.length + 37 := by
  rw [buildFileContext_err idx p h]
  simp only [List.length_append]
  have h1 : (lit "FILE: ").length = 6 := by decide
  have h2 : (lit "\n[Error: Could not read file]\n\n").length = 31 := by decide
  omega

theorem bfc_length_big (idx : FileIndex) (p c : JStr) (h : idx.readFile p = some c)
    (hlen : 2000 < c.length) :
    (buildFileContext idx p).length = p.length + 2113 := by
  rw [buildFileContext_big idx p c h hlen]
  simp only [List.length_append, List.length_replicate, List.length_take]
  have h1 : (lit "FILE: ").length = 6 := by decide
  have h2 : (lit "\n").length = 1 := by decide
  have h3 : (lit "\n... [File truncated]\n").length = 22 := by decide
  have h4 : (lit "\n\n").length = 2 := by decide
  omega

theorem bfc_length_small (idx : FileIndex) (p c : JStr) (h : idx.readFile p = some c)
    (hne : c ≠ []) (hlen : c.length ≤ 2000) :
    (buildFileContext idx p).length = p.length + c.length + 91 := by
  rw [buildFileContext_small idx p c h hne hlen]
  simp only [List.length_append, List.length_replicate]
  have h1 : (lit "FILE: ").length = 6 := by decide
  have h2 : (lit "\n").length = 1 := by decide
  have h4 : (lit "\n\n").length = 2 := by decide
  omega

theorem foldl_user_turns (idx : FileIndex) :
    ∀ (msgs : List Turn) (acc : List JStr),
      msgs.foldl
        (fun acc m =>
          if m.role = lit "user" then (findMentionedFiles idx m.content).foldl dedupInsert acc
          else acc) acc
      = ((msgs.filter (fun t => t.role = lit "user")).flatMap
          (fun t => findMentionedFiles idx t.content)).foldl dedupInsert acc := by
  intro msgs
  induction msgs with
  | nil => intro acc; rfl
  | cons m ms ih =>
    intro acc
    simp only [List.foldl_cons, List.filter_cons, decide_eq_true_eq]
    by_cases hm : m.role = lit "user"
    · simp only [if_pos hm, List.flatMap_cons, List.foldl_append]
      exact ih _
    · simp only [if_neg hm]
      exact ih acc

/-- C9: for every pair of calls to `buildContext` with identical message,
identical history and an unchanged project index (and file contents), the two
returned strings are byte-identical: the second run, started from the state
the first run left behind, produces the same output. -/
theorem buildContext_two_run_determinism (idx : FileIndex) (st : ContextBuilderState)
    (msg : JStr) (hist : List Turn) :
    (buildContextS idx (buildContextS idx st msg hist).2 msg hist).1
      = (buildContextS idx st msg hist).1 := rfl

/-- C5: the continuity lookup inspects only the last 4 turns of the full
history (4 turns of mixed roles, then filtered to role `user` among those),
re-runs candidate extraction on each such user turn, and returns the union
deduplicated in order of first appearance — as stated by `continuitySpec`. -/
theorem continuity_window_last_four_turns (idx : FileIndex) (history : List Turn) :
    findRecentlyMentionedFiles idx history = continuitySpec idx history :=
  foldl_user_turns idx (history.drop (history.length - 4)) []

/-- C8: `FileManager.readFile` resolves `fullPath` against the project root,
but its existence pre-check runs on the unresolved argument (against the
process working directory).  With project root `/proj`, working directory
`/other` and a file readable at `/proj/a.js`, reading `a.js` returns the
failure value even though the project-root resolution exists and is readable —
the code contradicts its own contract of resolving relative paths against the
project root. -/
theorem readFile_checks_unresolved_path :
    readFileFM fmBug fsBug (lit "a.js") = none
    ∧ fsBug.existsAt (pathJoin fmBug.projectPath (lit "a.js")) = true
    ∧ fsBug.readUtf8 (pathJoin fmBug.projectPath (lit "a.js")) = some (lit "hello") := by
  refine ⟨?_, ?_, ?_⟩ <;> decide

/-- C2: packing equals the specification: the blocks of the longest prefix
whose running total fits the budget are emitted whole, a single notice is
appended whenever a block was omitted, and nothing after the omission is
considered.  With budget 100 and two 80-character rendered blocks, only the
first block is included and the notice is appended. -/
theorem packing_omits_overflowing_block_entirely :
    (∀ (idx : FileIndex) (b : Nat) (files : List JStr),
        packFiles idx b files 0 = packSpec idx b files)
    ∧ (buildContextS idxTwo { maxContextLength := 100 } msgTwo []).1
        = headerL ++ buildFileContext idxTwo p43a ++ noticeL ++ footerL
    ∧ (buildFileContext idxTwo p43a).length = 80
    ∧ (buildFileContext idxTwo p43b).length = 80 := by
  refine ⟨packFiles_eq_packSpec, ?_, ?_, ?_⟩ <;> decide

/-- C6: for a selected readable file, if the content exceeds 2000 characters
its block carries exactly the first 2000 characters followed by the
`[File truncated]` marker; if the content is at most 2000 characters (and
nonempty) the block carries the content in full with nothing appended. -/
theorem file_truncated_beyond_2000 (idx : FileIndex) (p c : JStr)
    (h : idx.readFile p = some c) :
    (2000 < c.length →
      buildFileContext idx p
        = lit "FILE: " ++ p ++ lit "\n" ++ List.replicate 40 '=' ++ lit "\n"
          ++ (c.take 2000 ++ lit "\n... [File truncated]\n") ++ lit "\n"
          ++ List.replicate 40 '=' ++ lit "\n\n")
    ∧ (c.length ≤ 2000 → c ≠ [] →
      buildFileContext idx p
        = lit "FILE: " ++ p ++ lit "\n" ++ List.replicate 40 '=' ++ lit "\n"
          ++ c ++ lit "\n" ++ List.replicate 40 '=' ++ lit "\n\n") :=
  ⟨fun hbig => buildFileContext_big idx p c h hbig,
   fun hsmall hne => buildFileContext_small idx p c h hne hsmall⟩

/-- Witness for C6: a 5000-character file is truncated to its first 2000
characters plus the marker; a 500-character file appears in full, unmarked. -/
theorem file_truncated_beyond_2000_witness :
    buildFileContext idxSize (lit "big.js")
      = lit "FILE: " ++ lit "big.js" ++ lit "\n" ++ List.replicate 40 '=' ++ lit "\n"
        ++ (List.replicate 2000 'a' ++ lit "\n... [File truncated]\n") ++ lit "\n"
        ++ List.replicate 40 '=' ++ lit "\n\n"
    ∧ buildFileContext idxSize (lit "small.js")
      = lit "FILE: " ++ lit "small.js" ++ lit "\n" ++ List.replicate 40 '=' ++ lit "\n"
        ++ List.replicate 500 'b' ++ lit "\n" ++ List.replicate 40 '=' ++ lit "\n\n" := by
  constructor
  · have h := (file_truncated_beyond_2000 idxSize (lit "big.js") (List.replicate 5000 'a') rfl).1
      (by rw [List.length_replicate]; omega)
    rw [h, List.take_replicate]
    have hmin : (2000 : Nat) ⊓ 5000 = 2000 := rfl
    rw [hmin]
  · exact (file_truncated_beyond_2000 idxSize (lit "small.js") (List.replicate 500 'b') rfl).2
      (by rw [List.length_replicate]; omega)
      (by
        intro hh
        have := congrArg List.length hh
        simp [List.length_replicate] at this)

/-- C7: a selected file whose read fails at pack time is rendered as an
`[Error: Could not read file]` block labeled with its path, and packing
continues with the remaining selection instead of aborting. -/
theorem pack_continues_after_unreadable_file (idx : FileIndex) (p : JStr) (rest : List JStr)
    (b cur : Nat) (h : idx.readFile p = none)
    (hfit : ¬ b < cur + (buildFileContext idx p).length) :
    buildFileContext idx p = lit "FILE: " ++ p ++ lit "\n[Error: Could not read file]\n\n"
    ∧ packFiles idx b (p :: rest) cur
        = buildFileContext idx p
          ++ packFiles idx b rest (cur + (buildFileContext idx p).length) := by
  refine ⟨buildFileContext_err idx p h, ?_⟩
  simp only [packFiles, if_neg hfit]

/-- Witness for C7: an unreadable `bad.js` followed by a readable `ok.js`. -/
theorem pack_continues_after_unreadable_file_witness :
    buildFileContext idxErr (lit "bad.js")
      = lit "FILE: " ++ lit "bad.js" ++ lit "\n[Error: Could not read file]\n\n"
    ∧ packFiles idxErr 8000 [lit "bad.js", lit "ok.js"] 0
        = buildFileContext idxErr (lit "bad.js")
          ++ packFiles idxErr 8000 [lit "ok.js"]
              (0 + (buildFileContext idxErr (lit "bad.js")).length) :=
  pack_continues_after_unreadable_file idxErr (lit "bad.js") [lit "ok.js"] 8000 0 rfl
    (by decide)

/-- C1 (amended): the returned string's length never exceeds the configured
budget plus the lengths of the three fixed markers — header (78), truncation
notice (54) and footer (29), 161 characters in all.  The budget bounds only
the sum of the file blocks; header and footer are not counted against it. -/
theorem buildContext_length_bounded (idx : FileIndex) (st : ContextBuilderState)
    (msg : JStr) (hist : List Turn) :
    ((buildContextS idx st msg hist).1).length
      ≤ st.maxContextLength + (headerL.length + noticeL.length + footerL.length) := by
  by_cases h : computeSelection idx msg hist = []
  · have hempty : (buildContextS idx st msg hist).1 = [] := by
      simp [buildContextS, h]
    simp [hempty]
  · rw [buildContextS_fst_of_ne_nil idx st msg hist h]
    simp only [List.length_append]
    have hp := packFiles_length_le idx st.maxContextLength (computeSelection idx msg hist) 0
      (Nat.zero_le _)
    omega

theorem selOver : computeSelection idxOver msgOver []
    = [lit "a.js", lit "b.js", lit "c.js", lit "d.js"] := by decide

theorem lenOverA : (buildFileContext idxOver (lit "a.js")).length = 2117 := by
  have h := bfc_length_big idxOver (lit "a.js") (List.replicate 2001 'a') rfl
    (by rw [List.length_replicate]; omega)
  rw [h]; decide

theorem lenOverB : (buildFileContext idxOver (lit "b.js")).length = 2117 := by
  have h := bfc_length_big idxOver (lit "b.js") (List.replicate 2001 'b') rfl
    (by rw [List.length_replicate]; omega)
  rw [h]; decide

theorem lenOverC : (buildFileContext idxOver (lit "c.js")).length = 2117 := by
  have h := bfc_length_big idxOver (lit "c.js") (List.replicate 2001 'c') rfl
    (by rw [List.length_replicate]; omega)
  rw [h]; decide

theorem lenOverD : (buildFileContext idxOver (lit "d.js")).length = 1649 := by
  have h := bfc_length_small idxOver (lit "d.js") (List.replicate 1554 'd') rfl
    (by intro hh; have := congrArg List.length hh; simp [List.length_replicate] at this)
    (by rw [List.length_replicate]; omega)
  rw [h]; decide

theorem lenOverOut : ((buildContextS idxOver {} msgOver []).1).length = 8107 := by
  rw [buildContextS_fst_of_ne_nil idxOver {} msgOver [] (by rw [selOver]; simp)]
  have hb : ({} : ContextBuilderState).maxContextLength = 8000 := rfl
  rw [hb, selOver]
  simp only [packFiles, lenOverA, lenOverB, lenOverC, lenOverD]
  norm_num
  simp only [List.length_append, List.length_nil, lenOverA, lenOverB, lenOverC, lenOverD]
  have h1 : headerL.length = 78 := by decide
  have h2 : footerL.length = 29 := by decide
  omega

/-- C1 counterexample: with the constructor-configured budget of 8000, four
mentioned files pack to exactly 8000 characters of blocks, and the fixed
header and footer push the returned string to 8107 characters — more than the
budget plus the 54-character truncation notice line. -/
theorem buildContext_exceeds_budget_plus_notice :
    ({} : ContextBuilderState).maxContextLength = 8000
    ∧ 8000 + noticeL.length < ((buildContextS idxOver {} msgOver []).1).length := by
  refine ⟨rfl, ?_⟩
  rw [lenOverOut]
  decide

/-- C4 (amended): the keyword-topic pass takes at most the first 3 matches per
representative pattern of a keyword, so one keyword with `k` patterns can
contribute up to `3 * k` files (not 3). -/
theorem keyword_pass_three_per_pattern (idx : FileIndex) (kw : JStr) (pats : List JStr)
    (_h : (kw, pats) ∈ keywordToFileType) :
    (keywordFilesFor idx pats).length ≤ 3 * pats.length := by
  clear _h
  induction pats with
  | nil => simp [keywordFilesFor]
  | cons p ps ih =>
    simp only [keywordFilesFor, List.flatMap_cons, List.length_append, List.length_map,
      List.length_cons]
    simp only [keywordFilesFor] at ih
    have htake : ((findFiles idx.projectFiles p).take 3).length ≤ 3 := by
      rw [List.length_take]; omega
    omega

/-- Witness for C4's amended bound at the table entry for `test`. -/
theorem keyword_pass_three_per_pattern_witness :
    (lit "test", [lit "test", lit "spec", lit "__test__"]) ∈ keywordToFileType
    ∧ (keywordFilesFor idxKw [lit "test", lit "spec", lit "__test__"]).length
        ≤ 3 * ([lit "test", lit "spec", lit "__test__"] : List JStr).length :=
  ⟨by decide,
   keyword_pass_three_per_pattern idxKw (lit "test") [lit "test", lit "spec", lit "__test__"]
     (by decide)⟩

/-- C4 counterexample: on the message `test` only the keyword `test` fires and
the literal-pattern passes contribute nothing, yet four files enter the
candidate set — more than the claimed first 3 matching files per keyword. -/
theorem keyword_pass_four_candidates_single_keyword :
    (findMentionedFiles idxKw (lit "test")).length = 4
    ∧ patternPassFiles idxKw (lit "test") = []
    ∧ (keywordToFileType.filter
        (fun kv => containsSub kv.1 (toLowerL (lit "test")))).map Prod.fst = [lit "test"] := by
  refine ⟨?_, ?_, ?_⟩ <;> decide

theorem not_mem_appendC {c : Char} {l1 l2 : JStr} (h1 : ¬ c ∈ l1) (h2 : ¬ c ∈ l2) :
    ¬ c ∈ l1 ++ l2 := fun h => (List.mem_append.mp h).elim h1 h2

theorem not_mem_replicateC {c a : Char} {n : Nat} (h : ¬ c = a) :
    ¬ c ∈ List.replicate n a := fun hm => h (List.eq_of_mem_replicate hm)

theorem selDrop : computeSelection idxDrop msgDrop []
    = [lit "a.js", lit "b.js", lit "c.js", lit "q7.js"] := by decide

theorem bfcDropA : buildFileContext idxDrop (lit "a.js")
    = lit "FILE: " ++ lit "a.js" ++ lit "\n" ++ List.replicate 40 '=' ++ lit "\n"
      ++ (List.replicate 2000 'x' ++ lit "\n... [File truncated]\n") ++ lit "\n"
      ++ List.replicate 40 '=' ++ lit "\n\n" := by
  have h := buildFileContext_big idxDrop (lit "a.js") (List.replicate 2001 'x') rfl
    (by rw [List.length_replicate]; omega)
  rw [h, List.take_replicate]
  have hmin : (2000 : Nat) ⊓ 2001 = 2000 := rfl
  rw [hmin]

theorem bfcDropB : buildFileContext idxDrop (lit "b.js")
    = lit "FILE: " ++ lit "b.js" ++ lit "\n" ++ List.replicate 40 '=' ++ lit "\n"
      ++ (List.replicate 2000 'y' ++ lit "\n... [File truncated]\n") ++ lit "\n"
      ++ List.replicate 40 '=' ++ lit "\n\n" := by
  have h := buildFileContext_big idxDrop (lit "b.js") (List.replicate 2001 'y') rfl
    (by rw [List.length_replicate]; omega)
  rw [h, List.take_replicate]
  have hmin : (2000 : Nat) ⊓ 2001 = 2000 := rfl
  rw [hmin]

theorem bfcDropC : buildFileContext idxDrop (lit "c.js")
    = lit "FILE: " ++ lit "c.js" ++ lit "\n" ++ List.replicate 40 '=' ++ lit "\n"
      ++ (List.replicate 2000 'z' ++ lit "\n... [File truncated]\n") ++ lit "\n"
      ++ List.replicate 40 '=' ++ lit "\n\n" := by
  have h := buildFileContext_big idxDrop (lit "c.js") (List.replicate 2001 'z') rfl
    (by rw [List.length_replicate]; omega)
  rw [h, List.take_replicate]
  have hmin : (2000 : Nat) ⊓ 2001 = 2000 := rfl
  rw [hmin]

theorem lenDropA : (buildFileContext idxDrop (lit "a.js")).length = 2117 := by
  have h := bfc_length_big idxDrop (lit "a.js") (List.replicate 2001 'x') rfl
    (by rw [List.length_replicate]; omega)
  rw [h]; decide

theorem lenDropB : (buildFileContext idxDrop (lit "b.js")).length = 2117 := by
  have h := bfc_length_big idxDrop (lit "b.js") (List.replicate 2001 'y') rfl
    (by rw [List.length_replicate]; omega)
  rw [h]; decide

theorem lenDropC : (buildFileContext idxDrop (lit "c.js")).length = 2117 := by
  have h := bfc_length_big idxDrop (lit "c.js") (List.replicate 2001 'z') rfl
    (by rw [List.length_replicate]; omega)
  rw [h]; decide

theorem lenDropQ : (buildFileContext idxDrop (lit "q7.js")).length = 1796 := by
  have h := bfc_length_small idxDrop (lit "q7.js") (List.replicate 1700 'x') rfl
    (by intro hh; have := congrArg List.length hh; simp [List.length_replicate] at this)
    (by rw [List.length_replicate]; omega)
  rw [h]; decide

theorem packDropEq :
    packFiles idxDrop 8000 [lit "a.js", lit "b.js", lit "c.js", lit "q7.js"] 0
      = buildFileContext idxDrop (lit "a.js")
        ++ (buildFileContext idxDrop (lit "b.js")
          ++ (buildFileContext idxDrop (lit "c.js") ++ noticeL)) := by
  simp only [packFiles, lenDropA, lenDropB, lenDropC, lenDropQ]
  norm_num

theorem outDropEq :
    (buildContextS idxDrop {} msgDrop []).1
      = headerL ++ (buildFileContext idxDrop (lit "a.js")
          ++ (buildFileContext idxDrop (lit "b.js")
            ++ (buildFileContext idxDrop (lit "c.js") ++ noticeL))) ++ footerL := by
  rw [buildContextS_fst_of_ne_nil idxDrop {} msgDrop [] (by rw [selDrop]; simp)]
  have hb : ({} : ContextBuilderState).maxContextLength = 8000 := rfl
  rw [hb, selDrop, packDropEq]

theorem seven_notin_outDrop : ¬ ('7' : Char) ∈ (buildContextS idxDrop {} msgDrop []).1 := by
  rw [outDropEq, bfcDropA, bfcDropB, bfcDropC]
  intro h
  simp only [List.mem_append] at h
  have k1 : ¬ ('7' : Char) ∈ headerL := by decide
  have k2 : ¬ ('7' : Char) ∈ footerL := by decide
  have k3 : ¬ ('7' : Char) ∈ noticeL := by decide
  have k4 : ¬ ('7' : Char) ∈ lit "FILE: " := by decide
  have k5 : ¬ ('7' : Char) ∈ lit "a.js" := by decide
  have k6 : ¬ ('7' : Char) ∈ lit "b.js" := by decide
  have k7 : ¬ ('7' : Char) ∈ lit "c.js" := by decide
  have k8 : ¬ ('7' : Char) ∈ lit "\n" := by decide
  have k9 : ¬ ('7' : Char) ∈ lit "\n\n" := by decide
  have k10 : ¬ ('7' : Char) ∈ lit "\n... [File truncated]\n" := by decide
  have k11 : ¬ ('7' : Char) ∈ List.replicate 40 '=' := not_mem_replicateC (by decide)
  have k12 : ¬ ('7' : Char) ∈ List.replicate 2000 'x' := not_mem_replicateC (by decide)
  have k13 : ¬ ('7' : Char) ∈ List.replicate 2000 'y' := not_mem_replicateC (by decide)
  have k14 : ¬ ('7' : Char) ∈ List.replicate 2000 'z' := not_mem_replicateC (by decide)
  tauto

theorem q7_block_absent :
    ¬ ∃ u v, (buildContextS idxDrop {} msgDrop []).1 = u ++ lit "FILE: q7.js" ++ v := by
  rintro ⟨u, v, h⟩
  apply seven_notin_outDrop
  rw [h]
  exact List.mem_append.mpr (Or.inl (List.mem_append.mpr (Or.inr (by decide))))

/-- C10: after every call to `buildContext`, `getCurrentContext` returns the
full deduplicated selection computed for that turn — including files whose
blocks were dropped at the budget — so it may name files that do not appear in
the packed output, as `q7.js` here. -/
theorem current_context_full_selection :
    (∀ (idx : FileIndex) (st : ContextBuilderState) (msg : JStr) (hist : List Turn),
        getCurrentContext (buildContextS idx st msg hist).2 = computeSelection idx msg hist)
    ∧ lit "q7.js" ∈ getCurrentContext (buildContextS idxDrop {} msgDrop []).2
    ∧ ¬ ∃ u v, (buildContextS idxDrop {} msgDrop []).1 = u ++ lit "FILE: q7.js" ++ v := by
  refine ⟨fun idx st msg hist => rfl, ?_, q7_block_absent⟩
  show lit "q7.js" ∈ computeSelection idxDrop msgDrop []
  rw [selDrop]
  simp

/-- C3 counterexample: the message `a.js b.js c.js "q7.js"` contains the quoted
literal filename `q7.js`, which exists in the project index, yet the string
returned by `buildContext` contains no `FILE: q7.js` block: the three earlier
blocks leave no room in the 8000 budget and the block for `q7.js` is dropped. -/
theorem quoted_mention_block_dropped :
    msgDrop = lit "a.js b.js c.js " ++ dquoteChar :: lit "q7.js" ++ dquoteChar :: []
    ∧ (∃ f ∈ idxDrop.projectFiles, f.name = lit "q7.js")
    ∧ ¬ ∃ u v, (buildContextS idxDrop {} msgDrop []).1 = u ++ lit "FILE: q7.js" ++ v := by
  refine ⟨by decide, ⟨exFile (lit "q7.js"), by decide, rfl⟩, q7_block_absent⟩

theorem dotTokenAt_none (cls : Char → Bool) (c : Char) (t : JStr) (hc : cls c = false) :
    dotTokenAt cls (c :: t) = none := by
  unfold dotTokenAt
  rw [List.takeWhile_cons_of_neg (by simp [hc])]

theorem dotTokenAt_some {cls : Char → Bool} {s mt rest : JStr}
    (h : dotTokenAt cls s = some (mt, rest)) :
    s = mt ++ rest ∧ mt ≠ []
      ∧ rest.length < s.length
      ∧ ∀ c ∈ mt, cls c = true ∨ isWordChar c = true ∨ c = '.' := by
  unfold dotTokenAt at h
  split at h
  · rename_i c1 r1 d s2 h1 h2
    split at h
    · rename_i hd
      split at h
      · simp at h
      · rename_i c2 r2 h3
        simp only [Option.some.injEq, Prod.mk.injEq] at h
        obtain ⟨hmt, hrest⟩ := h
        subst hd
        have hs : s = (c1 :: r1) ++ '.' :: s2 := by
          rw [← h1, ← h2, List.takeWhile_append_dropWhile]
        have hs2 : s2 = (c2 :: r2) ++ rest := by
          rw [← h3, ← hrest, List.takeWhile_append_dropWhile]
        constructor
        · rw [hs, hs2, ← hmt]
          simp [List.append_assoc]
        constructor
        · rw [← hmt]; simp
        constructor
        · rw [hs, hs2]
          simp only [List.length_append, List.length_cons]
          omega
        · intro c hc
          rw [← hmt] at hc
          rcases List.mem_append.mp hc with hc | hc
          · exact Or.inl (List.mem_takeWhile_imp (h1 ▸ hc))
          · rcases List.mem_cons.mp hc with hc | hc
            · exact Or.inr (Or.inr hc)
            · exact Or.inr (Or.inl (List.mem_takeWhile_imp (h3 ▸ hc)))
    · simp at h
  · simp at h

theorem scanAllF_eq_scanAll (m : JStr → Option (JStr × JStr))
    (hm : ∀ s mt rest, m s = some (mt, rest) → rest.length < s.length) :
    ∀ (fuel : Nat) (s : JStr), s.length ≤ fuel → scanAllF m fuel s = scanAll m s := by
  intro fuel
  induction fuel using Nat.strong_induction_on with
  | _ fuel ih =>
    intro s hs
    cases fuel with
    | zero =>
      cases s with
      | nil => rfl
      | cons c t => simp at hs
    | succ fuel =>
      cases s with
      | nil => rfl
      | cons c t =>
        have hts : t.length ≤ fuel := by
          simp only [List.length_cons] at hs; omega
        show scanAllF m (fuel + 1) (c :: t) = scanAllF m (c :: t).length (c :: t)
        simp only [List.length_cons, scanAllF]
        cases hm2 : m (c :: t) with
        | some pr =>
          obtain ⟨mt, rest⟩ := pr
          have hr := hm _ _ _ hm2
          simp only [List.length_cons] at hr
          have e1 : scanAllF m fuel rest = scanAll m rest :=
            ih fuel (Nat.lt_succ_self _) rest (by omega)
          have e2 : scanAllF m t.length rest = scanAll m rest :=
            ih t.length (by omega) rest (by omega)
          show mt :: scanAllF m fuel rest = mt :: scanAllF m t.length rest
          rw [e1, e2]
        | none =>
          have e1 : scanAllF m fuel t = scanAll m t :=
            ih fuel (Nat.lt_succ_self _) t hts
          have e2 : scanAllF m t.length t = scanAll m t :=
            ih t.length (by omega) t (le_refl _)
          show scanAllF m fuel t = scanAllF m t.length t
          rw [e1, e2]

theorem scanAll_step (m : JStr → Option (JStr × JStr))
    (hm : ∀ s mt rest, m s = some (mt, rest) → rest.length < s.length)
    (s : JStr) (hne : s ≠ []) :
    scanAll m s = match m s with
      | some (mt, rest) => mt :: scanAll m rest
      | none => scanAll m s.tail := by
  cases s with
  | nil => exact absurd rfl hne
  | cons c t =>
    show scanAllF m (c :: t).length (c :: t) = _
    simp only [List.length_cons, scanAllF, List.tail_cons]
    cases hm2 : m (c :: t) with
    | some pr =>
      obtain ⟨mt, rest⟩ := pr
      have hr := hm _ _ _ hm2
      simp only [List.length_cons] at hr
      show mt :: scanAllF m t.length rest = mt :: scanAll m rest
      rw [scanAllF_eq_scanAll m hm t.length rest (by omega)]
    | none =>
      show scanAllF m t.length t = scanAll m t
      rw [scanAllF_eq_scanAll m hm t.length t (le_refl _)]

theorem takeWhile_all_append (p : Char → Bool) (w r : JStr) (hw : ∀ c ∈ w, p c = true) :
    (w ++ r).takeWhile p = w ++ r.takeWhile p := by
  induction w with
  | nil => rfl
  | cons a t ih =>
    simp only [List.cons_append, List.takeWhile_cons, hw a (List.mem_cons_self a t), if_true]
    rw [ih (fun c hc => hw c (List.mem_cons_of_mem a hc))]

theorem dropWhile_all_append (p : Char → Bool) (w r : JStr) (hw : ∀ c ∈ w, p c = true) :
    (w ++ r).dropWhile p = r.dropWhile p := by
  induction w with
  | nil => rfl
  | cons a t ih =>
    simp only [List.cons_append, List.dropWhile_cons, hw a (List.mem_cons_self a t), if_true]
    exact ih (fun c hc => hw c (List.mem_cons_of_mem a hc))

theorem dotTokenAt_fname (stem ext rest0 : JStr) (d : Char)
    (hs : stem ≠ []) (he : ext ≠ [])
    (hsw : ∀ c ∈ stem, isWordChar c = true) (hew : ∀ c ∈ ext, isWordChar c = true)
    (hd : isWordChar d = false) :
    dotTokenAt isWordChar (stem ++ '.' :: (ext ++ d :: rest0))
      = some (stem ++ '.' :: ext, d :: rest0) := by
  cases stem with
  | nil => exact absurd rfl hs
  | cons c1 r1 =>
    cases ext with
    | nil => exact absurd rfl he
    | cons c2 r2 =>
      have htake : ((c1 :: r1) ++ '.' :: ((c2 :: r2) ++ d :: rest0)).takeWhile isWordChar
          = c1 :: r1 := by
        rw [takeWhile_all_append isWordChar (c1 :: r1) _ hsw,
          List.takeWhile_cons_of_neg (by decide)]
        simp
      have hdrop : ((c1 :: r1) ++ '.' :: ((c2 :: r2) ++ d :: rest0)).dropWhile isWordChar
          = '.' :: ((c2 :: r2) ++ d :: rest0) := by
        rw [dropWhile_all_append isWordChar (c1 :: r1) _ hsw,
          List.dropWhile_cons_of_neg (by decide)]
      have htake2 : ((c2 :: r2) ++ d :: rest0).takeWhile isWordChar = c2 :: r2 := by
        rw [takeWhile_all_append isWordChar (c2 :: r2) _ hew,
          List.takeWhile_cons_of_neg (by simp [hd])]
        simp
      have hdrop2 : ((c2 :: r2) ++ d :: rest0).dropWhile isWordChar = d :: rest0 := by
        rw [dropWhile_all_append isWordChar (c2 :: r2) _ hew,
          List.dropWhile_cons_of_neg (by simp [hd])]
      simp only [dotTokenAt, htake, hdrop, htake2, hdrop2]
      simp

theorem append_mid_split (y : Char) :
    ∀ (a xs b ys : JStr), a ++ b = xs ++ y :: ys → ¬ y ∈ a →
      ∃ zs, b = zs ++ y :: ys ∧ a ++ zs = xs := by
  intro a
  induction a with
  | nil =>
    intro xs b ys h hy
    exact ⟨xs, by simpa using h, by simp⟩
  | cons c a' ih =>
    intro xs b ys h hy
    cases xs with
    | nil =>
      simp only [List.cons_append, List.nil_append] at h
      have hc : c = y := by injection h
      exact absurd (hc ▸ List.mem_cons_self c a') hy
    | cons x xs' =>
      simp only [List.cons_append] at h
      injection h with h1 h2
      obtain ⟨zs, hb, hx⟩ := ih xs' b ys h2 (fun hm => hy (List.mem_cons_of_mem c hm))
      exact ⟨zs, hb, by rw [List.cons_append, hx, h1]⟩

theorem p1_consumes :
    ∀ (s mt rest : JStr), dotTokenAt isWordChar s = some (mt, rest) → rest.length < s.length :=
  fun _ _ _ h => (dotTokenAt_some h).2.2.1

theorem fname_mem_scan_base (stem ext post : JStr)
    (hs : stem ≠ []) (he : ext ≠ [])
    (hsw : ∀ c ∈ stem, isWordChar c = true) (hew : ∀ c ∈ ext, isWordChar c = true) :
    (stem ++ '.' :: ext)
      ∈ scanAll (dotTokenAt isWordChar)
          (dquoteChar :: ((stem ++ '.' :: ext) ++ dquoteChar :: post)) := by
  rw [scanAll_step _ p1_consumes _ (by simp)]
  rw [dotTokenAt_none isWordChar dquoteChar _ (by decide)]
  show (stem ++ '.' :: ext)
    ∈ scanAll (dotTokenAt isWordChar) ((stem ++ '.' :: ext) ++ dquoteChar :: post)
  have hshape : (stem ++ '.' :: ext) ++ dquoteChar :: post
      = stem ++ '.' :: (ext ++ dquoteChar :: post) := by simp
  rw [hshape]
  rw [scanAll_step _ p1_consumes _ (by simp)]
  rw [dotTokenAt_fname stem ext post dquoteChar hs he hsw hew (by decide)]
  show (stem ++ '.' :: ext)
    ∈ (stem ++ '.' :: ext) :: scanAll (dotTokenAt isWordChar) (dquoteChar :: post)
  exact List.mem_cons_self _ _

theorem fname_mem_scan (stem ext post : JStr)
    (hs : stem ≠ []) (he : ext ≠ [])
    (hsw : ∀ c ∈ stem, isWordChar c = true) (hew : ∀ c ∈ ext, isWordChar c = true) :
    ∀ (n : Nat) (pre : JStr), pre.length ≤ n →
      (stem ++ '.' :: ext)
        ∈ scanAll (dotTokenAt isWordChar)
            (pre ++ dquoteChar :: ((stem ++ '.' :: ext) ++ dquoteChar :: post)) := by
  intro n
  induction n with
  | zero =>
    intro pre hp
    have hpre : pre = [] := List.length_eq_zero.mp (Nat.le_zero.mp hp)
    subst hpre
    simpa using fname_mem_scan_base stem ext post hs he hsw hew
  | succ n ih =>
    intro pre hp
    cases pre with
    | nil => simpa using fname_mem_scan_base stem ext post hs he hsw hew
    | cons c pre' =>
      rw [List.cons_append]
      rw [scanAll_step _ p1_consumes _ (by simp)]
      cases hm2 : dotTokenAt isWordChar
          (c :: (pre' ++ dquoteChar :: ((stem ++ '.' :: ext) ++ dquoteChar :: post))) with
      | none =>
        show (stem ++ '.' :: ext)
          ∈ scanAll (dotTokenAt isWordChar)
              (pre' ++ dquoteChar :: ((stem ++ '.' :: ext) ++ dquoteChar :: post))
        exact ih pre' (by simp only [List.length_cons] at hp; omega)
      | some pr =>
        obtain ⟨mt, rest⟩ := pr
        obtain ⟨hseq, hmne, _, hmem⟩ := dotTokenAt_some hm2
        have hy : ¬ dquoteChar ∈ mt := by
          intro hq
          rcases hmem dquoteChar hq with h1 | h1 | h1
          · exact absurd h1 (by decide)
          · exact absurd h1 (by decide)
          · exact absurd h1 (by decide)
        obtain ⟨zs, hb, hxz⟩ := append_mid_split dquoteChar mt (c :: pre') rest
          ((stem ++ '.' :: ext) ++ dquoteChar :: post)
          (by rw [List.cons_append, ← hseq]) hy
        show (stem ++ '.' :: ext) ∈ mt :: scanAll (dotTokenAt isWordChar) rest
        apply List.mem_cons_of_mem
        rw [hb]
        have hlen : zs.length ≤ n := by
          have hlx := congrArg List.length hxz
          simp only [List.length_append, List.length_cons] at hlx
          have hmpos : 0 < mt.length := List.length_pos.mpr hmne
          simp only [List.length_cons] at hp
          omega
        exact ih zs hlen

theorem cleanMatch_worddot (l : JStr) (h : ∀ c ∈ l, isWordChar c = true ∨ c = '.') :
    cleanMatch l = l := by
  unfold cleanMatch
  apply List.filter_eq_self.mpr
  intro a ha
  have hq : a ≠ backtickChar ∧ a ≠ dquoteChar ∧ a ≠ squoteChar := by
    rcases h a ha with hw | hdot
    · refine ⟨?_, ?_, ?_⟩ <;> (intro he2; rw [he2] at hw; exact absurd hw (by decide))
    · subst hdot; exact ⟨by decide, by decide, by decide⟩
  simp [hq.1, hq.2.1, hq.2.2]

theorem self_mem_findFiles (files : List ProjectFile) (f : ProjectFile) (hf : f ∈ files)
    (q : JStr) (hq : f.name = q) : f ∈ findFiles files q := by
  unfold findFiles
  refine List.mem_filter.mpr ⟨hf, ?_⟩
  rw [hq, containsSub_self]
  simp

theorem buildFileContext_head (idx : FileIndex) (p : JStr) :
    ∃ w, buildFileContext idx p = (lit "FILE: " ++ p ++ lit "\n") ++ w := by
  have hsplit : lit "\n[Error: Could not read file]\n\n"
      = lit "\n" ++ lit "[Error: Could not read file]\n\n" := by decide
  cases h : idx.readFile p with
  | none =>
    refine ⟨lit "[Error: Could not read file]\n\n", ?_⟩
    rw [buildFileContext_err idx p h, hsplit]
    simp [List.append_assoc]
  | some c =>
    by_cases hc : c.isEmpty
    · refine ⟨lit "[Error: Could not read file]\n\n", ?_⟩
      have hcnil : c = [] := List.isEmpty_iff.mp hc
      subst hcnil
      simp only [buildFileContext, h, List.isEmpty_nil, if_true]
      rw [hsplit]
      simp [List.append_assoc]
    · refine ⟨List.replicate 40 '=' ++ lit "\n"
        ++ (if 2000 < c.length then c.take 2000 ++ lit "\n... [File truncated]\n" else c)
        ++ lit "\n" ++ List.replicate 40 '=' ++ lit "\n\n", ?_⟩
      simp only [buildFileContext, h, hc, Bool.false_eq_true, if_false]
      simp [List.append_assoc]

/-- C3 (amended): for every message containing a quoted literal filename that
exists in the project index, the file's relative path is always part of the
computed selection; a `FILE: <path>` block for it appears in the returned
string whenever every selected block fits the budget.  (As stated originally
the claim fails: the block is dropped when earlier blocks exhaust the
budget.) -/
theorem quoted_literal_filename_selected
    (idx : FileIndex) (st : ContextBuilderState) (hist : List Turn)
    (msg pre post stem ext : JStr) (f : ProjectFile)
    (hmsg : msg = pre ++ dquoteChar :: ((stem ++ '.' :: ext) ++ dquoteChar :: post))
    (hs : stem ≠ []) (he : ext ≠ [])
    (hsw : ∀ c ∈ stem, isWordChar c = true) (hew : ∀ c ∈ ext, isWordChar c = true)
    (hf : f ∈ idx.projectFiles) (hname : f.name = stem ++ '.' :: ext) :
    f.relativePath ∈ computeSelection idx msg hist
    ∧ (fitsCount st.maxContextLength
          (((computeSelection idx msg hist).map (buildFileContext idx)).map List.length)
        = (computeSelection idx msg hist).length →
      ∃ u v, (buildContextS idx st msg hist).1
        = u ++ (lit "FILE: " ++ f.relativePath ++ lit "\n") ++ v) := by
  have hscan : (stem ++ '.' :: ext) ∈ scanAll (dotTokenAt isWordChar) msg := by
    rw [hmsg]
    exact fname_mem_scan stem ext post hs he hsw hew pre.length pre (le_refl _)
  have hmatches : (stem ++ '.' :: ext) ∈ filePatternMatches msg := by
    unfold filePatternMatches
    exact List.mem_append_left _ (List.mem_append_left _ (List.mem_append_left _
      (List.mem_append_left _ hscan)))
  have hfwd : ∀ c ∈ stem ++ '.' :: ext, isWordChar c = true ∨ c = '.' := by
    intro c hc
    rcases List.mem_append.mp hc with hc | hc
    · exact Or.inl (hsw c hc)
    · rcases List.mem_cons.mp hc with hc | hc
      · exact Or.inr hc
      · exact Or.inl (hew c hc)
  have hfind : f ∈ findFiles idx.projectFiles (cleanMatch (stem ++ '.' :: ext)) := by
    rw [cleanMatch_worddot _ hfwd]
    exact self_mem_findFiles idx.projectFiles f hf _ hname
  have hpat : f.relativePath ∈ patternPassFiles idx msg := by
    unfold patternPassFiles
    exact List.mem_flatMap.mpr ⟨stem ++ '.' :: ext, hmatches, List.mem_map_of_mem _ hfind⟩
  have hment : f.relativePath ∈ findMentionedFiles idx msg :=
    mem_dedupFirst (List.mem_append_left _ hpat)
  have hsel : f.relativePath ∈ computeSelection idx msg hist :=
    mem_dedupFirst (List.mem_append_left _ hment)
  refine ⟨hsel, fun hfit => ?_⟩
  have hne : computeSelection idx msg hist ≠ [] := List.ne_nil_of_mem hsel
  rw [buildContextS_fst_of_ne_nil idx st msg hist hne, packFiles_eq_packSpec]
  simp only [packSpec, hfit]
  rw [show (computeSelection idx msg hist).length
      = ((computeSelection idx msg hist).map (buildFileContext idx)).length from
        (List.length_map _ _).symm]
  rw [List.take_length, if_neg (lt_irrefl _)]
  obtain ⟨l1, l2, hsplit⟩ := List.append_of_mem hsel
  obtain ⟨w, hw⟩ := buildFileContext_head idx f.relativePath
  rw [hsplit, List.map_append, List.map_cons, List.flatten_append, List.flatten_cons, hw]
  refine ⟨headerL ++ ((l1.map (buildFileContext idx)).flatten),
    w ++ (l2.map (buildFileContext idx)).flatten ++ footerL, ?_⟩
  simp [List.append_assoc]

/-- Witness for C3's amended claim: the message `see "a.js"` with a single
indexed readable file `a.js` selects `a.js` and the output carries its block. -/
theorem quoted_literal_filename_selected_witness :
    lit "a.js" ∈ computeSelection idxOne msgOne []
    ∧ ∃ u v, (buildContextS idxOne {} msgOne []).1
        = u ++ (lit "FILE: " ++ lit "a.js" ++ lit "\n") ++ v := by
  have h := quoted_literal_filename_selected idxOne {} [] msgOne (lit "see ") []
    (lit "a") (lit "js") (exFile (lit "a.js")) (by decide) (by decide) (by decide)
    (by decide) (by decide) (by decide) (by decide)
  exact ⟨h.1, h.2 (by decide)⟩
